import Mathlib

/-!
Verification of the shrs readline core (`crates/shrs_core/src/readline/line.rs`)
against its natural-language specification.

The editable-text container `CursorBuffer` lives in the external `shrs_utils`
crate and is modelled from the spec; everything else is translated directly
from `line.rs`.  Strings are modelled as `List Char`; Rust's byte-oriented
`String::len` is modelled by `utf8Len`.
-/

/-- Number of bytes of the UTF-8 encoding of a character (Rust `char::len_utf8`). -/
def charUtf8Size (c : Char) : Nat :=
  if c.val < 0x80 then 1
  else if c.val < 0x800 then 2
  else if c.val < 0x10000 then 3
  else 4

/-- Rust `String::len`: the length in bytes of the UTF-8 encoding. -/
def utf8Len (cs : List Char) : Nat := (cs.map charUtf8Size).sum

/-- Modelled from the spec: display width of one character, as computed by the
external `unicode-width` crate (not part of this repository).  Control
characters have width 0, East-Asian wide ranges width 2, everything else
width 1.  Only the ranges needed here are distinguished. -/
def charWidth (c : Char) : Nat :=
  if c.val < 0x20 then 0
  else if c.val = 0x7F then 0
  else if 0x1100 ≤ c.val ∧ c.val ≤ 0x115F then 2
  else if 0x2E80 ≤ c.val ∧ c.val ≤ 0x9FFF then 2
  else if 0xAC00 ≤ c.val ∧ c.val ≤ 0xD7A3 then 2
  else if 0xF900 ≤ c.val ∧ c.val ≤ 0xFAFF then 2
  else if 0xFF00 ≤ c.val ∧ c.val ≤ 0xFF60 then 2
  else 1

/-- Rust `unicode_width::UnicodeWidthStr::width`: sum of character widths. -/
def strWidth (cs : List Char) : Nat := (cs.map charWidth).sum

/-- Rust `str::trim_end_matches("\n")`: remove ALL trailing newline characters. -/
def trimEndNewlines (cs : List Char) : List Char :=
  ((cs.reverse).dropWhile (fun c => c = '\n')).reverse

/-- Spec-described alternative used for comparison with `trimEndNewlines`:
strip EXACTLY ONE trailing newline if present ("strip exactly one trailing
newline if present"). -/
def stripOneNewline (cs : List Char) : List Char :=
  match cs.reverse with
  | '\n' :: rest => rest.reverse
  | _ => cs

/-- Rust `str::split(' ')`: split on every single space; the empty string
yields one empty piece, adjacent spaces yield empty pieces. -/
def splitOnSpace : List Char → List (List Char)
  | [] => [[]]
  | c :: rest =>
    let r := splitOnSpace rest
    if c = ' ' then [] :: r
    else
      match r with
      | w :: ws => (c :: w) :: ws
      | [] => [[c]]

/-- Rust `[&str]::join(" ")`: interleave single spaces. -/
def joinSpace : List (List Char) → List Char
  | [] => []
  | [w] => w
  | w :: ws => w ++ ' ' :: joinSpace ws

/-- Rust byte-range slicing `&s[i..]` of a UTF-8 string, at char granularity:
defined (`some`) exactly when `i` does not exceed the byte length and falls on
a character boundary; `none` models the panic. -/
def sliceFromBytes : List Char → Nat → Option (List Char)
  | cs, 0 => some cs
  | [], _ + 1 => none
  | c :: cs, i + 1 =>
    if charUtf8Size c ≤ i + 1 then sliceFromBytes cs (i + 1 - charUtf8Size c)
    else none

/-- Operating mode of readline (`LineMode` in line.rs). -/
inductive LineMode where
  /-- Vi insert mode -/
  | Insert
  /-- Vi normal mode -/
  | Normal
deriving DecidableEq, Repr

/-- State of where the prompt is in history browse mode (`HistoryInd`). -/
inductive HistoryInd where
  /-- Brand new prompt -/
  | Prompt
  /-- In history line -/
  | Line (i : Nat)
deriving DecidableEq, Repr

/-- `HistoryInd::up`: go up (less recent) in history; from prompt mode enter
history.  NOTE: in the source, `limit - 1` underflows for `limit = 0` in the
`Line` branch; that situation is unreachable (a `Line` index only arises with
nonempty history) and is modelled here by truncated subtraction. -/
def HistoryInd.up (h : HistoryInd) (limit : Nat) : HistoryInd :=
  match h with
  | .Prompt => if limit = 0 then .Prompt else .Line 0
  | .Line i => .Line (min (i + 1) (limit - 1))

/-- `HistoryInd::down`: go down (more recent); from the most recent history
line enter prompt mode. -/
def HistoryInd.down (h : HistoryInd) : HistoryInd :=
  match h with
  | .Prompt => .Prompt
  | .Line i => if i = 0 then .Prompt else .Line (i - 1)

/-- Modelled from the spec: the external `shrs_utils::CursorBuffer`, an
"editable-text-with-cursor container"; text plus a cursor offset measured in
characters. -/
structure CursorBuffer where
  text : List Char
  cursor : Nat
deriving DecidableEq, Repr

namespace CursorBuffer

/-- Modelled from the spec: the empty buffer (`CursorBuffer::default`, also
the result of `clear`). -/
def empty : CursorBuffer := ⟨[], 0⟩

/-- Modelled from the spec: `insert(Location::Cursor(), s)` — insert at the
cursor; the cursor lands after the inserted text. -/
def insertAtCursor (cb : CursorBuffer) (s : List Char) : CursorBuffer :=
  ⟨cb.text.take cb.cursor ++ s ++ cb.text.drop cb.cursor, cb.cursor + s.length⟩

/-- Modelled from the spec: `move_cursor(Location::Rel(n))` — relative cursor
move, failing (`none`) when the target falls outside the buffer. -/
def moveRel (cb : CursorBuffer) (n : Int) : Option CursorBuffer :=
  let c : Int := (cb.cursor : Int) + n
  if 0 ≤ c ∧ c ≤ (cb.text.length : Int) then some ⟨cb.text, c.toNat⟩ else none

/-- Modelled from the spec: `delete(Location::Cursor(), Location::Rel(n))` —
delete `n` positions forward from the cursor, failing when past the end. -/
def deleteForward (cb : CursorBuffer) (n : Nat) : Option CursorBuffer :=
  if cb.cursor + n ≤ cb.text.length then
    some ⟨cb.text.take cb.cursor ++ cb.text.drop (cb.cursor + n), cb.cursor⟩
  else none

/-- Modelled from the spec: `is_empty`. -/
def isEmpty (cb : CursorBuffer) : Bool := cb.text.isEmpty

end CursorBuffer

/-- State needed for readline (`LineState` in line.rs).  The `cb` field is the
cursor buffer, `lines` the stored lines of a multiprompt command. -/
structure LineState where
  cb : CursorBuffer
  lines : List Char
  currentWord : List Char
  historyInd : HistoryInd
  savedLine : List Char
  mode : LineMode
deriving DecidableEq, Repr

/-- `LineState::new`. -/
def LineState.new : LineState :=
  ⟨CursorBuffer.empty, [], [], .Prompt, [], .Insert⟩

/-- `LineState::get_full_command`: stored lines followed by the buffer text. -/
def LineState.getFullCommand (st : LineState) : List Char :=
  st.lines ++ st.cb.text

/-- `Line::update_history`: repaint the buffer from the history index.
`Prompt` restores the saved line; `Line i` restores history entry `i`
(`history.get(i).unwrap()` panics when the index is out of range, modelled by
`none`). -/
def updateHistory (hist : List (List Char)) (st : LineState) : Option LineState :=
  match st.historyInd with
  | .Prompt =>
    some { st with cb := CursorBuffer.empty.insertAtCursor st.savedLine }
  | .Line i =>
    match hist.get? i with
    | some item => some { st with cb := CursorBuffer.empty.insertAtCursor item }
    | none => none

/-- `Line::history_up`: snapshot the buffer as the saved line when leaving the
prompt, step the index up, repaint. -/
def historyUp (hist : List (List Char)) (st : LineState) : Option LineState :=
  let st1 :=
    if st.historyInd = .Prompt then { st with savedLine := st.cb.text } else st
  updateHistory hist { st1 with historyInd := st1.historyInd.up hist.length }

/-- `Line::history_down`: step the index down, repaint. -/
def historyDown (hist : List (List Char)) (st : LineState) : Option LineState :=
  updateHistory hist { st with historyInd := st.historyInd.down }

/-- `k` successive presses of Down (`Line::history_down`). -/
def iterDown (hist : List (List Char)) : Nat → LineState → Option LineState
  | 0, st => some st
  | k + 1, st => (historyDown hist st).bind (iterDown hist k)

/-- One step of the history-index state machine: an Up press, a Down press, or
an append to the (append-only) history log. -/
inductive HistStep : HistoryInd × Nat → HistoryInd × Nat → Prop where
  | up (h : HistoryInd) (L : Nat) : HistStep (h, L) (h.up L, L)
  | down (h : HistoryInd) (L : Nat) : HistStep (h, L) (h.down, L)
  | append (h : HistoryInd) (L : Nat) : HistStep (h, L) (h, L + 1)

/-- Reachability of a (history index, history length) pair from a session
start (index `Prompt`, any initial history length). -/
def HistReach (s t : HistoryInd × Nat) : Prop :=
  Relation.ReflTransGen HistStep s t

/-- The index invariant: `Line i` requires `i` strictly below the history
length. -/
def IndOk (s : HistoryInd × Nat) : Prop :=
  ∀ i, s.1 = HistoryInd.Line i → i < s.2

theorem indOk_up {h : HistoryInd} {L : Nat} (hok : IndOk (h, L)) :
    IndOk (h.up L, L) := by
  intro i hi
  cases h with
  | Prompt =>
    simp only [HistoryInd.up] at hi
    by_cases hL : L = 0
    · simp [hL] at hi
    · simp [hL] at hi
      omega
  | Line j =>
    have hj := hok j rfl
    simp only [HistoryInd.up, HistoryInd.Line.injEq] at hi
    omega

theorem indOk_down {h : HistoryInd} {L : Nat} (hok : IndOk (h, L)) :
    IndOk (h.down, L) := by
  intro i hi
  cases h with
  | Prompt => simp [HistoryInd.down] at hi
  | Line j =>
    have hj := hok j rfl
    simp only [HistoryInd.down] at hi
    by_cases hz : j = 0
    · simp [hz] at hi
    · simp [hz, HistoryInd.Line.injEq] at hi
      omega

/-- C3 -- For every reachable session state (history appended-to only), the
history-browse index is either `Prompt` or `Line i` with `i <` history length;
for history length `L ≥ 1` an Up from `Line (L-1)` stays at `Line (L-1)` (the
index is clamped and never advances past the oldest entry). -/
theorem history_index_invariant :
    (∀ (L0 : Nat) (s : HistoryInd × Nat),
        HistReach (HistoryInd.Prompt, L0) s → IndOk s) ∧
    (∀ L : Nat, 1 ≤ L →
        HistoryInd.up (HistoryInd.Line (L - 1)) L = HistoryInd.Line (L - 1)) := by
  constructor
  · intro L0 s hreach
    induction hreach with
    | refl => intro i hi; simp at hi
    | tail _ hstep ih =>
      cases hstep with
      | up h L => exact indOk_up ih
      | down h L => exact indOk_down ih
      | append h L =>
        intro i hi
        have := ih i hi
        omega
  · intro L hL
    simp only [HistoryInd.up, HistoryInd.Line.injEq]
    omega

/-- Witness for C3: a concrete reachable state (Up after one append from an
empty-history session) satisfies the invariant, and Up clamps at `L = 3`. -/
theorem history_index_invariant_witness :
    IndOk (HistoryInd.Line 0, 1) ∧
    HistoryInd.up (HistoryInd.Line 2) 3 = HistoryInd.Line 2 := by
  have h := history_index_invariant
  refine ⟨?_, h.2 3 (by decide)⟩
  have hreach : HistReach (HistoryInd.Prompt, 0) (HistoryInd.Line 0, 1) := by
    have h1 : HistStep (HistoryInd.Prompt, 0) (HistoryInd.Prompt, 1) :=
      HistStep.append _ _
    have h2 : HistStep (HistoryInd.Prompt, 1)
        (HistoryInd.up HistoryInd.Prompt 1, 1) := HistStep.up _ _
    have h2' : HistStep (HistoryInd.Prompt, 1) (HistoryInd.Line 0, 1) := by
      simpa [HistoryInd.up] using h2
    exact Relation.ReflTransGen.tail (Relation.ReflTransGen.single h1) h2'
  exact h.1 0 _ hreach

theorem historyDown_from_prompt (hist : List (List Char)) (st : LineState)
    (h : st.historyInd = .Prompt) :
    historyDown hist st =
      some { st with cb := CursorBuffer.empty.insertAtCursor st.savedLine } := by
  simp [historyDown, updateHistory, HistoryInd.down, h]

theorem iterDown_from_prompt (hist : List (List Char)) (k : Nat) :
    ∀ st : LineState, st.historyInd = .Prompt → st.cb.text = st.savedLine →
    ∃ st', iterDown hist k st = some st' ∧ st'.historyInd = .Prompt ∧
      st'.savedLine = st.savedLine ∧ st'.cb.text = st.savedLine := by
  induction k with
  | zero =>
    intro st h1 h2
    exact ⟨st, rfl, h1, rfl, h2.symm ▸ h2⟩
  | succ k ih =>
    intro st h1 h2
    have hd := historyDown_from_prompt hist st h1
    set st1 : LineState :=
      { st with cb := CursorBuffer.empty.insertAtCursor st.savedLine } with hst1
    have h1' : st1.historyInd = .Prompt := h1
    have h2' : st1.cb.text = st1.savedLine := by
      simp [hst1, CursorBuffer.empty, CursorBuffer.insertAtCursor]
    obtain ⟨st', hiter, hp, hs, ht⟩ := ih st1 h1' h2'
    refine ⟨st', ?_, hp, hs, ht⟩
    simp [iterDown, hd, hiter]

/-- C4 -- Round-trip: from a `Prompt` session with buffer text `T` and
non-empty history, pressing Up enters browsing (the draft is snapshotted) and
any positive number of Down presses returns to `Prompt` with the buffer
restored to exactly `T`. -/
theorem history_browse_roundtrip (hist : List (List Char)) (st : LineState)
    (h1 : st.historyInd = .Prompt) (h2 : hist ≠ []) (k : Nat) :
    ∃ st1 st2, historyUp hist st = some st1 ∧
      iterDown hist (k + 1) st1 = some st2 ∧
      st2.historyInd = .Prompt ∧ st2.cb.text = st.cb.text := by
  obtain ⟨h0, hs, hhist⟩ := List.exists_cons_of_ne_nil h2
  have hlen : hist.length ≠ 0 := by simp [hhist]
  have hup : historyUp hist st =
      some { st with savedLine := st.cb.text, historyInd := .Line 0,
                     cb := CursorBuffer.empty.insertAtCursor h0 } := by
    simp only [historyUp, h1, if_pos rfl]
    simp only [HistoryInd.up, if_neg hlen]
    simp [updateHistory, hhist]
  set st1 : LineState :=
    { st with savedLine := st.cb.text, historyInd := .Line 0,
              cb := CursorBuffer.empty.insertAtCursor h0 } with hst1
  have hdown : historyDown hist st1 =
      some { st1 with historyInd := .Prompt,
                      cb := CursorBuffer.empty.insertAtCursor st.cb.text } := by
    simp [historyDown, HistoryInd.down, updateHistory, hst1]
  set st2 : LineState :=
    { st1 with historyInd := .Prompt,
               cb := CursorBuffer.empty.insertAtCursor st.cb.text } with hst2
  have h1' : st2.historyInd = .Prompt := rfl
  have h2' : st2.cb.text = st2.savedLine := by
    simp [hst2, hst1, CursorBuffer.empty, CursorBuffer.insertAtCursor]
  obtain ⟨st', hiter, hp, hs', ht⟩ := iterDown_from_prompt hist k st2 h1' h2'
  refine ⟨st1, st', hup, ?_, hp, ?_⟩
  · simp [iterDown, hdown, hiter]
  · rw [ht]

/-- Witness for C4 at a concrete input: history `["ls"]`, draft `"d"`,
one Down press after the Up. -/
theorem history_browse_roundtrip_witness :
    ∃ st1 st2,
      historyUp [['l', 's']] { LineState.new with cb := ⟨['d'], 1⟩ } = some st1 ∧
      iterDown [['l', 's']] 1 st1 = some st2 ∧
      st2.historyInd = .Prompt ∧
      st2.cb.text = ({ LineState.new with cb := ⟨['d'], 1⟩ } : LineState).cb.text :=
  history_browse_roundtrip [['l', 's']] { LineState.new with cb := ⟨['d'], 1⟩ }
    rfl (by decide) 0

/-- C5 counterexample -- pressing Down from `Prompt` is NOT a no-op on the
buffer: with buffer `"abc"` and saved draft `""`, the buffer contents become
`""`, not `"abc"` (the index does stay `Prompt`). -/
theorem history_down_prompt_counterexample :
    historyDown [] ⟨⟨['a', 'b', 'c'], 3⟩, [], [], .Prompt, [], .Insert⟩ =
      some ⟨⟨[], 0⟩, [], [], .Prompt, [], .Insert⟩ ∧
    (⟨[], 0⟩ : CursorBuffer).text ≠ (⟨['a', 'b', 'c'], 3⟩ : CursorBuffer).text := by
  constructor
  · simp [historyDown, updateHistory, HistoryInd.down, CursorBuffer.empty,
      CursorBuffer.insertAtCursor]
  · decide

/-- C5 (amended) -- pressing Down from `Prompt` keeps the history index at
`Prompt` and repaints the buffer with the saved draft (all other fields
unchanged); the buffer contents are unchanged exactly when they already equal
the saved draft. -/
theorem history_down_prompt_amended (hist : List (List Char)) (st : LineState)
    (h : st.historyInd = .Prompt) :
    historyDown hist st =
      some { st with cb := CursorBuffer.empty.insertAtCursor st.savedLine } ∧
    (CursorBuffer.empty.insertAtCursor st.savedLine).text = st.savedLine :=
  ⟨historyDown_from_prompt hist st h, by
    simp [CursorBuffer.empty, CursorBuffer.insertAtCursor]⟩

/-- Witness for C5 (amended) at a concrete input. -/
theorem history_down_prompt_amended_witness :
    historyDown [] ⟨⟨['x'], 1⟩, [], [], .Prompt, ['s'], .Insert⟩ =
      some { (⟨⟨['x'], 1⟩, [], [], .Prompt, ['s'], .Insert⟩ : LineState) with
               cb := CursorBuffer.empty.insertAtCursor ['s'] } ∧
    (CursorBuffer.empty.insertAtCursor ['s']).text = ['s'] :=
  history_down_prompt_amended [] ⟨⟨['x'], 1⟩, [], [], .Prompt, ['s'], .Insert⟩ rfl

/-- The Enter / Ctrl-J arm of `Line::handle_standard_keys`.  The returned
`Bool` is the `should_break` flag: `true` terminates the read loop.  With the
menu active the event is absorbed (`Ok(false)`); otherwise, when the
interpreter's `needs_line_check` answer (passed in as `needsMoreLines`) is
`true`, the buffer text plus a newline is appended to `lines` and the buffer
cleared (`Ok(false)`); else `Ok(true)`. -/
def handleEnterKey (needsMoreLines menuActive : Bool) (st : LineState) :
    Bool × LineState :=
  if menuActive then (false, st)
  else if needsMoreLines then
    (false, { st with lines := st.lines ++ st.cb.text ++ ['\n'],
                      cb := CursorBuffer.empty })
  else (true, st)

/-- C1 -- With the completion menu inactive, an Enter/Ctrl-J for which the
interpreter reports that another line is needed appends the buffer text plus a
newline to the continuation accumulator, empties the buffer, and does not
terminate the loop; when no continuation is needed the loop terminates
normally.  The editing mode is unchanged in every case. -/
theorem enter_continuation (needsMoreLines menuActive : Bool) (st : LineState)
    (h : menuActive = false) :
    (needsMoreLines = true →
      handleEnterKey needsMoreLines menuActive st =
        (false, { st with lines := st.lines ++ st.cb.text ++ ['\n'],
                          cb := CursorBuffer.empty })) ∧
    (needsMoreLines = false →
      handleEnterKey needsMoreLines menuActive st = (true, st)) ∧
    ((handleEnterKey needsMoreLines menuActive st).2).mode = st.mode := by
  subst h
  cases needsMoreLines <;> simp [handleEnterKey]

/-- Witness for C1: the spec scenario — buffer `"echo 'a"`, interpreter needs
a continuation, menu inactive. -/
theorem enter_continuation_witness :
    handleEnterKey true false { LineState.new with cb := ⟨"echo 'a".data, 7⟩ } =
      (false,
        { ({ LineState.new with cb := ⟨"echo 'a".data, 7⟩ } : LineState) with
            lines := ({ LineState.new with cb := ⟨"echo 'a".data, 7⟩ } :
              LineState).lines ++ "echo 'a".data ++ ['\n'],
            cb := CursorBuffer.empty }) ∧
    "echo 'a".data ++ ['\n'] = "echo 'a\n".data :=
  ⟨(enter_continuation true false
      { LineState.new with cb := ⟨"echo 'a".data, 7⟩ } rfl).1 rfl, by decide⟩

/-- Modelled from the spec: a completion candidate's replace policy
(`ReplaceMethod` in the external completion module): "replace policy
(Append | Replace)". -/
inductive ReplaceMethod where
  | Append
  | Replace
deriving DecidableEq, Repr

/-- Modelled from the spec: one completion candidate ("display text;
replacement text; replace policy"); `accept` yields the replacement text that
is inserted into the buffer. -/
structure Completion where
  completion : List Char
  replaceMethod : ReplaceMethod
deriving DecidableEq, Repr

/-- Modelled from the spec: `Completion::accept` — the text inserted on
acceptance. -/
def Completion.accept (c : Completion) : List Char := c.completion

/-- `Line::accept_completion`: for `Append` just insert the accepted text at
the cursor; for `Replace` move the cursor back by `current_word.len()` (BYTE
length), delete forward `UnicodeWidthStr::width(current_word)` (display
width) positions, clear the current-word cache, then insert the accepted
text.  Failures of the buffer primitives propagate as `none`. -/
def acceptCompletion (st : LineState) (c : Completion) : Option LineState :=
  match c.replaceMethod with
  | .Append => some { st with cb := st.cb.insertAtCursor c.accept }
  | .Replace =>
    (st.cb.moveRel (-(utf8Len st.currentWord : Int))).bind fun cb1 =>
      (cb1.deleteForward (strWidth st.currentWord)).map fun cb2 =>
        { st with currentWord := [], cb := cb2.insertAtCursor c.accept }

/-- The acceptance step as the spec's words describe it: for `Replace`, BOTH
the cursor move-back and the forward deletion use the display width of the
cached current word.  Kept only for comparison with `acceptCompletion`. -/
def acceptCompletionSpecWidth (st : LineState) (c : Completion) :
    Option LineState :=
  match c.replaceMethod with
  | .Append => some { st with cb := st.cb.insertAtCursor c.accept }
  | .Replace =>
    (st.cb.moveRel (-(strWidth st.currentWord : Int))).bind fun cb1 =>
      (cb1.deleteForward (strWidth st.currentWord)).map fun cb2 =>
        { st with currentWord := [], cb := cb2.insertAtCursor c.accept }

/-- C2 counterexample -- the code moves the cursor back by the BYTE length of
the cached current word, not its display width: on buffer `"x é"` (cursor at
end) with cached word `"é"` (2 bytes, display width 1) and a Replace candidate
`"z"`, the code produces buffer `"xzé"` while the spec's description produces
`"x z"`. -/
theorem accept_completion_counterexample :
    acceptCompletion
        ⟨⟨['x', ' ', 'é'], 3⟩, [], ['é'], .Prompt, [], .Insert⟩
        ⟨['z'], .Replace⟩ =
      some ⟨⟨['x', 'z', 'é'], 2⟩, [], [], .Prompt, [], .Insert⟩ ∧
    acceptCompletionSpecWidth
        ⟨⟨['x', ' ', 'é'], 3⟩, [], ['é'], .Prompt, [], .Insert⟩
        ⟨['z'], .Replace⟩ =
      some ⟨⟨['x', ' ', 'z'], 3⟩, [], [], .Prompt, [], .Insert⟩ ∧
    acceptCompletion
        ⟨⟨['x', ' ', 'é'], 3⟩, [], ['é'], .Prompt, [], .Insert⟩
        ⟨['z'], .Replace⟩ ≠
      acceptCompletionSpecWidth
        ⟨⟨['x', ' ', 'é'], 3⟩, [], ['é'], .Prompt, [], .Insert⟩
        ⟨['z'], .Replace⟩ := by
  refine ⟨by decide, by decide, by decide⟩

/-- C2 (amended) -- accepting a completion: `Append` inserts the accepted
text at the cursor unchanged; `Replace` moves the cursor back by the BYTE
length of the cached current word, deletes forward display-width-many
positions, clears the current-word cache, then inserts the accepted text (for
ASCII words byte length and display width coincide, so the `"gi"` →
`"git status"` scenario holds as stated). -/
theorem accept_completion_amended (st : LineState) (c : Completion) :
    (c.replaceMethod = .Append →
      acceptCompletion st c =
        some { st with cb := st.cb.insertAtCursor c.accept }) ∧
    (c.replaceMethod = .Replace →
      ∀ cb1 cb2, st.cb.moveRel (-(utf8Len st.currentWord : Int)) = some cb1 →
        cb1.deleteForward (strWidth st.currentWord) = some cb2 →
        acceptCompletion st c =
          some { st with currentWord := [],
                         cb := cb2.insertAtCursor c.accept }) := by
  constructor
  · intro h
    simp [acceptCompletion, h]
  · intro h cb1 cb2 h1 h2
    simp [acceptCompletion, h, h1, h2]

/-- Witness for C2 (amended): the spec's own scenario — cached word `"gi"`,
Replace candidate `"git status"`, buffer `"gi"` with cursor at end — yields
buffer `"git status"` with cursor at end. -/
theorem accept_completion_amended_witness :
    acceptCompletion ⟨⟨"gi".data, 2⟩, [], "gi".data, .Prompt, [], .Insert⟩
        ⟨"git status".data, .Replace⟩ =
      some { (⟨⟨"gi".data, 2⟩, [], "gi".data, .Prompt, [], .Insert⟩ : LineState)
               with currentWord := ([] : List Char),
                    cb := (⟨[], 0⟩ : CursorBuffer).insertAtCursor
                      ("git status".data) } ∧
    (⟨[], 0⟩ : CursorBuffer).insertAtCursor ("git status".data) =
      ⟨"git status".data, 10⟩ :=
  ⟨(accept_completion_amended
        ⟨⟨"gi".data, 2⟩, [], "gi".data, .Prompt, [], .Insert⟩
        ⟨"git status".data, .Replace⟩).2 rfl
      ⟨"gi".data, 0⟩ ⟨[], 0⟩ (by decide) (by decide), by decide⟩

/-- Modelled from the spec: a snippet's position constraint
("Command-position-only vs. anywhere"; `Position` in the snippets module). -/
inductive Position where
  | Command
  | Anywhere
deriving DecidableEq, Repr

/-- Modelled from the spec: a registered snippet's expansion value and
position constraint (`SnippetInfo`). -/
structure SnippetInfo where
  value : List Char
  position : Position
deriving DecidableEq, Repr

/-- Modelled from the spec: the snippet table, "maps a trigger word to an
expansion value and a position constraint"; `get` is trigger lookup. -/
def lookupSnippet : List (List Char × SnippetInfo) → List Char → Option SnippetInfo
  | [], _ => none
  | (trig, info) :: rest, w => if trig = w then some info else lookupSnippet rest w

/-- The word-location loop of `Line::expand`: walk the space-split words
accumulating a character offset (`word.len()` bytes per word plus one for the
separating space); a word whose inclusive range `[start, end]` contains the
cursor index becomes the current word (a later match overwrites an earlier
one). -/
def curWordIdxAux : List (List Char) → Nat → Nat → Nat → Option Nat → Option Nat
  | [], _, _, _, acc => acc
  | w :: ws, cursor, off, i, acc =>
    let e := off + utf8Len w
    curWordIdxAux ws cursor (e + 1) (i + 1)
      (if off ≤ cursor ∧ cursor ≤ e then some i else acc)

/-- Index of the space-split word containing the cursor (`cur_word_index` in
`Line::expand`). -/
def curWordIdx (ws : List (List Char)) (cursor : Nat) : Option Nat :=
  curWordIdxAux ws cursor 0 0 none

/-- `Line::expand`.  `shouldExp` is the value of the external
`snippets.should_expand(event)` predicate on the triggering event.  Returns
the `should still be handled` flag together with the resulting state: `true`
means the caller continues processing the event. -/
def expand (sn : List (List Char × SnippetInfo)) (shouldExp : Bool)
    (st : LineState) : Bool × LineState :=
  if shouldExp = false then (true, st)
  else
    let words := splitOnSpace st.cb.text
    match curWordIdx words st.cb.cursor with
    | none => (true, st)
    | some c =>
      match lookupSnippet sn (words.getD c []) with
      | none => (true, st)
      | some info =>
        if info.position = Position.Command ∧ c ≠ 0 then (true, st)
        else
          let newText := joinSpace (words.set c info.value)
          (false, { st with cb := ⟨newText, newText.length⟩ })

/-- C6 -- snippet expansion returns `true` (continue processing) with the
state untouched unless the should-expand predicate matches; on a match, when
the cursor's token is a registered trigger whose position constraint holds
(Command requires token index 0), the token is replaced by the expansion
value, the line rejoined with single spaces, and the buffer cleared and
reinserted with the cursor at the end, returning `false`; when the token is
not a trigger, or the constraint fails, `true` is returned and the state is
unchanged. -/
theorem expand_spec (sn : List (List Char × SnippetInfo)) (st : LineState) :
    expand sn false st = (true, st) ∧
    (∀ c info,
      curWordIdx (splitOnSpace st.cb.text) st.cb.cursor = some c →
      lookupSnippet sn ((splitOnSpace st.cb.text).getD c []) = some info →
      ¬(info.position = Position.Command ∧ c ≠ 0) →
      expand sn true st =
        (false,
          { st with cb :=
              ⟨joinSpace ((splitOnSpace st.cb.text).set c info.value),
               (joinSpace ((splitOnSpace st.cb.text).set c info.value)).length⟩ })) ∧
    (∀ c,
      curWordIdx (splitOnSpace st.cb.text) st.cb.cursor = some c →
      lookupSnippet sn ((splitOnSpace st.cb.text).getD c []) = none →
      expand sn true st = (true, st)) ∧
    (∀ c info,
      curWordIdx (splitOnSpace st.cb.text) st.cb.cursor = some c →
      lookupSnippet sn ((splitOnSpace st.cb.text).getD c []) = some info →
      info.position = Position.Command → c ≠ 0 →
      expand sn true st = (true, st)) := by
  refine ⟨by simp [expand], ?_, ?_, ?_⟩
  · intro c info h1 h2 h3
    simp only [List.getD_eq_getElem?_getD] at h2
    simp [expand, h1, h2, h3]
  · intro c h1 h2
    simp only [List.getD_eq_getElem?_getD] at h2
    simp [expand, h1, h2]
  · intro c info h1 h2 h3 h4
    simp only [List.getD_eq_getElem?_getD] at h2
    simp [expand, h1, h2, h3, h4]

/-- Witness for C6: trigger `"gc"` with value `"git commit"` (anywhere) on
buffer `"gc"`, cursor at end: replaced, buffer reinserted, `false` returned. -/
theorem expand_spec_witness :
    expand [("gc".data, ⟨"git commit".data, Position.Anywhere⟩)] true
        ⟨⟨"gc".data, 2⟩, [], [], .Prompt, [], .Insert⟩ =
      (false,
        { (⟨⟨"gc".data, 2⟩, [], [], .Prompt, [], .Insert⟩ : LineState) with cb :=
            ⟨joinSpace ((splitOnSpace ("gc".data)).set 0 ("git commit".data)),
             (joinSpace ((splitOnSpace ("gc".data)).set 0 ("git commit".data))).length⟩ }) ∧
    joinSpace ((splitOnSpace ("gc".data)).set 0 ("git commit".data)) =
      "git commit".data :=
  ⟨(expand_spec [("gc".data, ⟨"git commit".data, Position.Anywhere⟩)]
      ⟨⟨"gc".data, 2⟩, [], [], .Prompt, [], .Insert⟩).2.1 0
      ⟨"git commit".data, Position.Anywhere⟩ (by decide) (by decide) (by decide),
   by decide⟩

/-- C9 counterexample -- expansion is NOT idempotent once applied: with the
single registered snippet `"g"` → `"g g"` (anywhere), buffer `"g"` (cursor at
end) successfully expands to `"g g"`; re-triggering expansion on that
already-expanded buffer expands again (the cursor's token `"g"` is still a
registered trigger), producing `"g g g"` rather than leaving the buffer
unchanged. -/
theorem expand_idempotent_counterexample :
    expand [(['g'], ⟨['g', ' ', 'g'], Position.Anywhere⟩)] true
        ⟨⟨['g'], 1⟩, [], [], .Prompt, [], .Insert⟩ =
      (false, ⟨⟨['g', ' ', 'g'], 3⟩, [], [], .Prompt, [], .Insert⟩) ∧
    expand [(['g'], ⟨['g', ' ', 'g'], Position.Anywhere⟩)] true
        ⟨⟨['g', ' ', 'g'], 3⟩, [], [], .Prompt, [], .Insert⟩ =
      (false, ⟨⟨['g', ' ', 'g', ' ', 'g'], 5⟩, [], [], .Prompt, [], .Insert⟩) ∧
    expand [(['g'], ⟨['g', ' ', 'g'], Position.Anywhere⟩)] true
        ⟨⟨['g', ' ', 'g'], 3⟩, [], [], .Prompt, [], .Insert⟩ ≠
      (true, ⟨⟨['g', ' ', 'g'], 3⟩, [], [], .Prompt, [], .Insert⟩) := by
  refine ⟨by decide, by decide, by decide⟩

/-- C9 (amended) -- re-triggering expansion on a buffer produced by a
successful expansion performs no further replacement and leaves the buffer
unchanged, PROVIDED the token containing the cursor in the expanded buffer is
not itself a registered trigger (re-expansion does occur when the expansion
value puts a registered trigger back under the cursor). -/
theorem expand_idempotent_amended (sn : List (List Char × SnippetInfo))
    (e1 : Bool) (st st' : LineState)
    (_hsucc : expand sn e1 st = (false, st'))
    (hnotrig : ∀ c, curWordIdx (splitOnSpace st'.cb.text) st'.cb.cursor = some c →
        lookupSnippet sn ((splitOnSpace st'.cb.text).getD c []) = none) :
    expand sn true st' = (true, st') := by
  unfold expand
  simp only [Bool.true_eq_false, if_false]
  cases hidx : curWordIdx (splitOnSpace st'.cb.text) st'.cb.cursor with
  | none => simp
  | some c =>
    have h2 := hnotrig c hidx
    simp only [List.getD_eq_getElem?_getD] at h2
    simp [h2]

/-- Witness for C9 (amended): snippet `"gc"` → `"git commit"`; after the
expansion the cursor's token is `"commit"`, which is not a trigger, so a
second expansion attempt returns `true` and leaves the state unchanged. -/
theorem expand_idempotent_amended_witness :
    expand [("gc".data, ⟨"git commit".data, Position.Anywhere⟩)] true
        ⟨⟨"git commit".data, 10⟩, [], [], .Prompt, [], .Insert⟩ =
      (true, ⟨⟨"git commit".data, 10⟩, [], [], .Prompt, [], .Insert⟩) := by
  have h := expand_idempotent_amended
    [("gc".data, ⟨"git commit".data, Position.Anywhere⟩)] true
    ⟨⟨"gc".data, 2⟩, [], [], .Prompt, [], .Insert⟩
    ⟨⟨"git commit".data, 10⟩, [], [], .Prompt, [], .Insert⟩
    (by decide)
    (by
      intro c hc
      have hval : curWordIdx
          (splitOnSpace
            ((⟨⟨"git commit".data, 10⟩, [], [], .Prompt, [], .Insert⟩ :
              LineState).cb.text))
          ((⟨⟨"git commit".data, 10⟩, [], [], .Prompt, [], .Insert⟩ :
              LineState).cb.cursor) = some 1 := by decide
      rw [hval] at hc
      obtain rfl : c = 1 := (Option.some.inj hc).symm
      decide)
  exact h

/-- The overlay computation for an active menu (`Line::read_events`):
`&selection.accept()[current_word.len()..]` — byte-slice the selected
candidate's accepted text at the byte length of the cached current word. -/
def menuOverlayText (selectionAccept currentWord : List Char) :
    Option (List Char) :=
  sliceFromBytes selectionAccept (utf8Len currentWord)

/-- The overlay computation for an inactive menu (`Line::read_events`):
`suggestion[res.len()..]` — byte-slice the suggester's suggestion at the byte
length of the full candidate text `res`. -/
def suggestOverlayText (suggestion res : List Char) : Option (List Char) :=
  sliceFromBytes suggestion (utf8Len res)

theorem sliceFromBytes_append (pre : List Char) :
    ∀ suf : List Char, sliceFromBytes (pre ++ suf) (utf8Len pre) = some suf := by
  induction pre with
  | nil => intro suf; simp [utf8Len, sliceFromBytes]
  | cons c pre ih =>
    intro suf
    have hsize : 1 ≤ charUtf8Size c := by
      unfold charUtf8Size
      split <;> try omega
      split <;> try omega
      split <;> omega
    have hlen : utf8Len (c :: pre) = charUtf8Size c + utf8Len pre := by
      simp [utf8Len]
    obtain ⟨k, hk⟩ : ∃ k, utf8Len (c :: pre) = k + 1 :=
      ⟨charUtf8Size c + utf8Len pre - 1, by omega⟩
    rw [hk, List.cons_append]
    have hle : charUtf8Size c ≤ k + 1 := by omega
    have hsub : k + 1 - charUtf8Size c = utf8Len pre := by omega
    simp only [sliceFromBytes, if_pos hle, hsub]
    exact ih suf

theorem sliceFromBytes_too_long (cs : List Char) :
    ∀ i : Nat, utf8Len cs < i → sliceFromBytes cs i = none := by
  induction cs with
  | nil =>
    intro i hi
    match i, hi with
    | k + 1, _ => rfl
  | cons c cs ih =>
    intro i hi
    have hlen : utf8Len (c :: cs) = charUtf8Size c + utf8Len cs := by
      simp [utf8Len]
    match i, hi with
    | k + 1, hi =>
      by_cases hle : charUtf8Size c ≤ k + 1
      · have : utf8Len cs < k + 1 - charUtf8Size c := by omega
        simp only [sliceFromBytes, if_pos hle]
        exact ih _ this
      · simp only [sliceFromBytes, if_neg hle]

/-- C10 -- the per-iteration overlay computation is partial at the
collaborator boundary: the byte-slice `s[i..]` is defined whenever `i` is the
byte length of a prefix of `s` (in particular whenever the suggestion extends
the typed text), is undefined — a panic — whenever `s` is shorter than `i`
(e.g. a suggester returning `"ab"` for typed text `"abc"`, or a menu
candidate `"z"` for cached word `"ab"`), and is undefined at a non-boundary
byte index of a multi-byte character. -/
theorem overlay_slice_partiality :
    (∀ pre suf : List Char,
        sliceFromBytes (pre ++ suf) (utf8Len pre) = some suf) ∧
    (∀ (cs : List Char) (i : Nat), utf8Len cs < i → sliceFromBytes cs i = none) ∧
    suggestOverlayText ("ab".data) ("abc".data) = none ∧
    menuOverlayText ['z'] ("ab".data) = none ∧
    sliceFromBytes ['é'] 1 = none := by
  refine ⟨sliceFromBytes_append, sliceFromBytes_too_long, by decide, by decide,
    by decide⟩

/-- Witness for C10: the general clauses applied at concrete inputs — the
suggestion `"abc"` for typed `"ab"` slices to `"c"`, while a three-byte
overrun is undefined. -/
theorem overlay_slice_partiality_witness :
    sliceFromBytes ("ab".data ++ ['c']) (utf8Len ("ab".data)) = some ['c'] ∧
    sliceFromBytes ("abc".data) 5 = none :=
  ⟨overlay_slice_partiality.1 ("ab".data) ['c'],
   overlay_slice_partiality.2.1 ("abc".data) 5 (by decide)⟩

/-- Modelled from the spec: a vi motion, as produced by the external
`shrs_vi` command grammar.  Only Up/Down are distinguished; every other
motion is a literal cursor move handled by the buffer. -/
inductive ViMotion where
  | Up
  | Down
  | OtherMotion
deriving DecidableEq, Repr

/-- Modelled from the spec: a vi action, as produced by the external
`shrs_vi` grammar: undo/redo, a motion, the invoke-external-editor action,
or any other edit action. -/
inductive ViAction where
  | Undo
  | Redo
  | Move (m : ViMotion)
  | Editor
  | OtherAction
deriving DecidableEq, Repr

/-- The normal-mode events `Line::handle_normal_keys` distinguishes: Escape,
a typed character, anything else. -/
inductive NormalEvent where
  | esc
  | char (c : Char)
  | otherEvent
deriving DecidableEq, Repr

/-- Modelled from the spec: the external collaborators the normal-mode
handler consults — the `shrs_vi` parser (repeat count and action), the
buffer's vi-action entry point (`CursorBuffer::execute_vi`, which may edit
the buffer and reports the resulting mode; `none` is `Err`), the snapshot
buffer history's prev/next, the `EDITOR` environment variable, and the effect
of the external editor program on the temporary file's contents. -/
structure ViEnv where
  parse : List Char → Option (Nat × ViAction)
  executeVi : ViAction → CursorBuffer → Option (CursorBuffer × LineMode)
  bhPrev : CursorBuffer → CursorBuffer
  bhNext : CursorBuffer → CursorBuffer
  editorEnv : Option (List Char)
  editorRun : List Char → List Char

/-- The `execute_vi` step of one repeat iteration: on `Ok(mode)` the buffer
update is applied and, when the reported mode differs from the current one,
the corresponding mode transition is performed; `Err` leaves the state
alone. -/
def viExec (env : ViEnv) (action : ViAction) (st : LineState) : LineState :=
  match env.executeVi action st.cb with
  | some (cb', mode') =>
    if mode' ≠ st.mode then { st with cb := cb', mode := mode' }
    else { st with cb := cb' }
  | none => st

/-- The `match action` dispatch of one repeat iteration of
`Line::handle_normal_keys`.  The returned flag is `true` exactly on the early
`return Ok(())` taken when the action is `Editor` and `EDITOR` is unset.  For
`Editor` with `EDITOR` set, the buffer text is handed to the editor program
and the result, with ALL trailing newlines stripped
(`trim_end_matches("\n")`), replaces the buffer.  `none` models a panic or a
propagated error from the history functions. -/
def viDispatch (env : ViEnv) (hist : List (List Char)) (action : ViAction)
    (st : LineState) : Option (LineState × Bool) :=
  match action with
  | .Undo => some ({ st with cb := env.bhPrev st.cb }, false)
  | .Redo => some ({ st with cb := env.bhNext st.cb }, false)
  | .Move .Up => (historyUp hist st).map (fun st' => (st', false))
  | .Move .Down => (historyDown hist st).map (fun st' => (st', false))
  | .Move .OtherMotion => some (st, false)
  | .Editor =>
    match env.editorEnv with
    | none => some (st, true)
    | some _ =>
      let newText := trimEndNewlines (env.editorRun st.cb.text)
      some ({ st with cb := CursorBuffer.empty.insertAtCursor newText }, false)
  | .OtherAction => some (st, false)

/-- The `for _ in 0..repeat` loop of `Line::handle_normal_keys`: each
iteration runs `execute_vi` then the action dispatch; a `true` flag from the
dispatch aborts the loop (the early return). -/
def runRepeat (env : ViEnv) (hist : List (List Char)) (action : ViAction) :
    Nat → LineState → Option (LineState × Bool)
  | 0, st => some (st, false)
  | k + 1, st =>
    let st1 := viExec env action st
    (viDispatch env hist action st1).bind fun r =>
      if r.2 then some (r.1, true) else runRepeat env hist action k r.1

/-- `Line::handle_normal_keys`: Escape clears the pending keys; a typed
character is pushed onto them and the accumulation is parsed — on parse
failure it is retained, on success the repeat loop runs and the pending keys
are cleared unless the loop took the early return; other events are
ignored. -/
def handleNormalKeys (env : ViEnv) (hist : List (List Char)) (st : LineState)
    (pending : List Char) : NormalEvent → Option (LineState × List Char)
  | .esc => some (st, [])
  | .otherEvent => some (st, pending)
  | .char c =>
    let nk := pending ++ [c]
    match env.parse nk with
    | none => some (st, nk)
    | some (rep, action) =>
      (runRepeat env hist action rep st).map fun r =>
        if r.2 then (r.1, nk) else (r.1, [])

theorem viDispatch_early (env : ViEnv) (hist : List (List Char))
    (action : ViAction) (st st' : LineState)
    (h : viDispatch env hist action st = some (st', true)) :
    action = .Editor ∧ env.editorEnv = none := by
  cases action with
  | Undo => simp [viDispatch] at h
  | Redo => simp [viDispatch] at h
  | Move m =>
    cases m <;> simp [viDispatch] at h
  | Editor =>
    cases he : env.editorEnv with
    | none => exact ⟨rfl, rfl⟩
    | some e => simp [viDispatch, he] at h
  | OtherAction => simp [viDispatch] at h

theorem runRepeat_early (env : ViEnv) (hist : List (List Char))
    (action : ViAction) (rep : Nat) :
    ∀ st st' : LineState, runRepeat env hist action rep st = some (st', true) →
    action = .Editor ∧ env.editorEnv = none := by
  induction rep with
  | zero => intro st st' h; simp [runRepeat] at h
  | succ k ih =>
    intro st st' h
    simp only [runRepeat, Option.bind_eq_bind] at h
    cases hd : viDispatch env hist action (viExec env action st) with
    | none => rw [hd] at h; simp at h
    | some r =>
      rw [hd] at h
      simp only [Option.some_bind] at h
      by_cases hr : r.2
      · exact viDispatch_early env hist action _ r.1
          (by rw [hd, show r = (r.1, true) from by
                    cases r; simp_all])
      · simp only [hr, if_false, Bool.false_eq_true, if_neg] at h
        exact ih r.1 st' h

/-- C7 counterexample -- the editor read-back does NOT strip exactly one
trailing newline: `trim_end_matches("\n")` strips ALL of them.  With `EDITOR`
set and an editor that leaves `"abc\n\n"` in the file, the buffer becomes
`"abc"`, not the `"abc\n"` the claim predicts. -/
theorem editor_one_newline_counterexample :
    viDispatch ⟨fun _ => none, fun _ cb => some (cb, .Insert), id, id,
        some ("vi".data), fun _ => "abc\n\n".data⟩ [] .Editor LineState.new =
      some ({ LineState.new with
                cb := CursorBuffer.empty.insertAtCursor ("abc".data) }, false) ∧
    trimEndNewlines ("abc\n\n".data) = "abc".data ∧
    stripOneNewline ("abc\n\n".data) = "abc\n".data ∧
    trimEndNewlines ("abc\n\n".data) ≠ stripOneNewline ("abc\n\n".data) := by
  refine ⟨by decide, by decide, by decide, by decide⟩

/-- C7 (amended) -- the invoke-external-editor action: with `EDITOR` unset it
is a silent no-op (state unchanged; the early return carries no error);
with `EDITOR` set, the editor program receives exactly the buffer's text, the
file is read back, ALL trailing newlines are stripped, and the buffer is
cleared and the result reinserted (cursor at the end). -/
theorem editor_action_amended (env : ViEnv) (hist : List (List Char))
    (st : LineState) :
    (env.editorEnv = none → viDispatch env hist .Editor st = some (st, true)) ∧
    (∀ ed, env.editorEnv = some ed →
      viDispatch env hist .Editor st =
        some ({ st with cb := CursorBuffer.empty.insertAtCursor (trimEndNewlines (env.editorRun st.cb.text)) }, false)) := by
  constructor
  · intro h
    simp [viDispatch, h]
  · intro ed h
    simp [viDispatch, h]

/-- Witness for C7 (amended): a concrete editor appending one newline to the
buffer text `"ls"`; the newline is stripped on read-back and the `EDITOR`-
unset case is a no-op. -/
theorem editor_action_amended_witness :
    viDispatch ⟨fun _ => none, fun _ cb => some (cb, .Insert), id, id,
        some ("vi".data), fun s => s ++ ['\n']⟩ [] .Editor
      { LineState.new with cb := ⟨"ls".data, 2⟩ } =
      some ({ { LineState.new with cb := ⟨"ls".data, 2⟩ } with
                cb := CursorBuffer.empty.insertAtCursor (trimEndNewlines ("ls".data ++ ['\n'])) }, false) ∧
    viDispatch ⟨fun _ => none, fun _ cb => some (cb, .Insert), id, id,
        none, fun s => s ++ ['\n']⟩ [] .Editor
      { LineState.new with cb := ⟨"ls".data, 2⟩ } =
      some ({ LineState.new with cb := ⟨"ls".data, 2⟩ }, true) :=
  ⟨(editor_action_amended ⟨fun _ => none, fun _ cb => some (cb, .Insert), id, id,
      some ("vi".data), fun s => s ++ ['\n']⟩ []
      { LineState.new with cb := ⟨"ls".data, 2⟩ }).2 ("vi".data) rfl,
   (editor_action_amended ⟨fun _ => none, fun _ cb => some (cb, .Insert), id, id,
      none, fun s => s ++ ['\n']⟩ []
      { LineState.new with cb := ⟨"ls".data, 2⟩ }).1 rfl⟩

/-- C8 counterexample -- the pending-keys buffer is NOT cleared after every
successful parse: with a grammar in which `"v"` parses as the
invoke-external-editor action and `EDITOR` unset, the handler takes the early
return before `normal_keys.clear()`, leaving the pending keys `"v"`. -/
theorem normal_keys_clear_counterexample :
    handleNormalKeys ⟨fun s => if s = ['v'] then some (1, .Editor) else none,
        fun _ _ => none, id, id, none, id⟩ [] LineState.new [] (.char 'v') =
      some (LineState.new, ['v']) ∧
    (['v'] : List Char) ≠ [] := by
  refine ⟨by decide, by decide⟩

/-- C8 (amended) -- normal-mode key handling: Escape clears the pending-keys
buffer; a character that does not yet parse is retained in the accumulation;
after a successful parse the pending keys are cleared regardless of the
executed action's outcome, EXCEPT when the repeat loop takes its early
return — which happens only for the invoke-external-editor action with
`EDITOR` unset — in which case the pending keys are retained. -/
theorem normal_keys_amended (env : ViEnv) (hist : List (List Char))
    (st : LineState) (pending : List Char) :
    handleNormalKeys env hist st pending .esc = some (st, []) ∧
    (∀ c, env.parse (pending ++ [c]) = none →
      handleNormalKeys env hist st pending (.char c) =
        some (st, pending ++ [c])) ∧
    (∀ c rep action st', env.parse (pending ++ [c]) = some (rep, action) →
      runRepeat env hist action rep st = some (st', false) →
      handleNormalKeys env hist st pending (.char c) = some (st', [])) ∧
    (∀ c rep action st', env.parse (pending ++ [c]) = some (rep, action) →
      runRepeat env hist action rep st = some (st', true) →
      handleNormalKeys env hist st pending (.char c) =
          some (st', pending ++ [c]) ∧
        action = .Editor ∧ env.editorEnv = none) := by
  refine ⟨rfl, ?_, ?_, ?_⟩
  · intro c h
    simp [handleNormalKeys, h]
  · intro c rep action st' h1 h2
    simp [handleNormalKeys, h1, h2]
  · intro c rep action st' h1 h2
    exact ⟨by simp [handleNormalKeys, h1, h2],
      runRepeat_early env hist action rep st st' h2⟩

/-- Witness for C8 (amended): a grammar in which `"x"` parses as an ordinary
edit action with repeat 1 — the pending keys are cleared after execution. -/
theorem normal_keys_amended_witness :
    handleNormalKeys ⟨fun s => if s = ['x'] then some (1, .OtherAction) else none,
        fun _ cb => some (cb, .Insert), id, id, none, id⟩ [] LineState.new []
      (.char 'x') = some (LineState.new, []) :=
  (normal_keys_amended
      ⟨fun s => if s = ['x'] then some (1, .OtherAction) else none,
        fun _ cb => some (cb, .Insert), id, id, none, id⟩ [] LineState.new
      []).2.2.1 'x' 1 .OtherAction LineState.new (by decide) (by decide)
